import Mathlib

/-!
Shallow embedding of the hybrid retrieval, response formatting and vector
index code of the rag-system repository
(app/query/retriever.py, app/query/formatter.py, app/vectorstore/faiss_client.py),
together with theorems settling the specification claims about it.

Python floats are modelled as exact rationals; Python / numpy sorting
primitives are modelled by the stable insertion sort below (Python list.sort
and sorted are stable; numpy argsort ties are modelled as stable, i.e. by
ascending position, which matches numpy's observed behaviour on the inputs
used here).
-/

/-- Stable insertion of `a` into `l`: `a` is placed in front of the first
element `b` with `le a b`. Used with a total transitive `le`, `sortBy` below
is a stable sort: equal-key elements keep their original relative order
(each element is inserted in front of equal-key elements that occur later
in the input, because sorting proceeds by folding from the right). -/
def insertSorted {α : Type} (le : α → α → Bool) (a : α) : List α → List α
  | [] => [a]
  | b :: bs => if le a b then a :: b :: bs else b :: insertSorted le a bs

/-- Stable sort by the Boolean relation `le` (models Python's stable
`list.sort` / `sorted`). -/
def sortBy {α : Type} (le : α → α → Bool) : List α → List α
  | [] => []
  | a :: as => insertSorted le a (sortBy le as)

theorem mem_insertSorted {α : Type} (le : α → α → Bool) (a x : α) (l : List α) :
    x ∈ insertSorted le a l ↔ x = a ∨ x ∈ l := by
  induction l with
  | nil => simp [insertSorted]
  | cons b bs ih =>
    by_cases h : le a b
    · rw [insertSorted, if_pos h]
      simp only [List.mem_cons]
    · rw [insertSorted, if_neg h]
      simp only [List.mem_cons, ih]
      tauto

theorem insertSorted_perm {α : Type} (le : α → α → Bool) (a : α) (l : List α) :
    (insertSorted le a l).Perm (a :: l) := by
  induction l with
  | nil => simp [insertSorted]
  | cons b bs ih =>
    by_cases h : le a b
    · simp [insertSorted, h]
    · simp only [insertSorted, h, Bool.false_eq_true, if_false]
      exact (ih.cons b).trans (List.Perm.swap a b bs)

theorem sortBy_perm {α : Type} (le : α → α → Bool) (l : List α) :
    (sortBy le l).Perm l := by
  induction l with
  | nil => simp [sortBy]
  | cons a as ih =>
    exact (insertSorted_perm le a (sortBy le as)).trans (ih.cons a)

theorem insertSorted_pairwise {α : Type} (le : α → α → Bool)
    (htrans : ∀ a b c, le a b = true → le b c = true → le a c = true)
    (htot : ∀ a b, le a b = true ∨ le b a = true)
    (a : α) (l : List α) (h : l.Pairwise (fun x y => le x y = true)) :
    (insertSorted le a l).Pairwise (fun x y => le x y = true) := by
  induction l with
  | nil => simp [insertSorted]
  | cons b bs ih =>
    rcases List.pairwise_cons.1 h with ⟨hb, hbs⟩
    by_cases hab : le a b
    · rw [insertSorted, if_pos hab]
      refine List.pairwise_cons.2 ⟨?_, h⟩
      intro x hx
      rcases List.mem_cons.1 hx with rfl | hx
      · exact hab
      · exact htrans a b x hab (hb x hx)
    · rw [insertSorted, if_neg hab]
      refine List.pairwise_cons.2 ⟨?_, ih hbs⟩
      intro x hx
      rcases (mem_insertSorted le a x bs).1 hx with rfl | hx
      · rcases htot x b with h' | h'
        · exact absurd h' hab
        · exact h'
      · exact hb x hx

theorem sortBy_pairwise {α : Type} (le : α → α → Bool)
    (htrans : ∀ a b c, le a b = true → le b c = true → le a c = true)
    (htot : ∀ a b, le a b = true ∨ le b a = true)
    (l : List α) :
    (sortBy le l).Pairwise (fun x y => le x y = true) := by
  induction l with
  | nil => simp [sortBy]
  | cons a as ih => exact insertSorted_pairwise le htrans htot a (sortBy le as) ih

/-- Sorting key used everywhere in the repository: descending score
(`sort(key=lambda x: x["score"], reverse=True)` / `sorted(..., reverse=True)`,
both stable in Python). -/
def scoreDescLe {α : Type} (key : α → ℚ) (a b : α) : Bool := decide (key b ≤ key a)

def sortByScoreDesc {α : Type} (key : α → ℚ) (l : List α) : List α :=
  sortBy (scoreDescLe key) l

theorem scoreDescLe_trans {α : Type} (key : α → ℚ) :
    ∀ a b c, scoreDescLe key a b = true → scoreDescLe key b c = true →
      scoreDescLe key a c = true := by
  intro a b c hab hbc
  simp only [scoreDescLe, decide_eq_true_eq] at *
  exact le_trans hbc hab

theorem scoreDescLe_total {α : Type} (key : α → ℚ) :
    ∀ a b, scoreDescLe key a b = true ∨ scoreDescLe key b a = true := by
  intro a b
  simp only [scoreDescLe, decide_eq_true_eq]
  exact le_total (key b) (key a)

theorem sortByScoreDesc_perm {α : Type} (key : α → ℚ) (l : List α) :
    (sortByScoreDesc key l).Perm l :=
  sortBy_perm _ l

theorem sortByScoreDesc_sorted {α : Type} (key : α → ℚ) (l : List α) :
    (sortByScoreDesc key l).Pairwise (fun a b => key b ≤ key a) := by
  have h := sortBy_pairwise (scoreDescLe key) (scoreDescLe_trans key)
    (scoreDescLe_total key) l
  refine h.imp ?_
  intro a b hab
  simpa [scoreDescLe] using hab

/-- Stability of the descending-score sort, fiber by fiber: the elements with
any given score appear in the output in exactly the order they had in the
input (no secondary tie-break). -/
theorem filter_insertSorted_score {α : Type} (key : α → ℚ) (s : ℚ) (a : α)
    (l : List α) :
    (insertSorted (scoreDescLe key) a l).filter (fun x => decide (key x = s)) =
      if key a = s then a :: l.filter (fun x => decide (key x = s))
      else l.filter (fun x => decide (key x = s)) := by
  induction l with
  | nil =>
    by_cases h : key a = s <;> simp [insertSorted, List.filter, h]
  | cons b bs ih =>
    by_cases hab : scoreDescLe key a b
    · rw [insertSorted, if_pos hab]
      by_cases ha : key a = s <;> simp [List.filter, ha]
    · rw [insertSorted, if_neg hab]
      have hb : key a < key b := by
        simp only [scoreDescLe, decide_eq_true_eq] at hab
        exact lt_of_not_le hab
      by_cases ha : key a = s
      · have hbne : ¬ (key b = s) := by
          intro hbs
          rw [ha] at hb
          rw [hbs] at hb
          exact lt_irrefl s hb
        simp [List.filter, hbne, ih, ha]
      · by_cases hbs : key b = s <;> simp [List.filter, hbs, ih, ha]

theorem sortByScoreDesc_stable {α : Type} (key : α → ℚ) (s : ℚ) (l : List α) :
    (sortByScoreDesc key l).filter (fun x => decide (key x = s)) =
      l.filter (fun x => decide (key x = s)) := by
  induction l with
  | nil => simp [sortByScoreDesc, sortBy]
  | cons a as ih =>
    show (insertSorted (scoreDescLe key) a (sortBy (scoreDescLe key) as)).filter _ = _
    rw [filter_insertSorted_score]
    by_cases ha : key a = s <;>
      simp only [sortByScoreDesc] at ih <;> simp [List.filter, ha, ih]

/-!
## Retriever model (app/query/retriever.py)

External collaborators are abstracted exactly at the repository's own
seams: the TF-IDF fit (`sklearn.TfidfVectorizer.fit_transform`) is a
parameter returning the sparse matrix it would produce, the cosine
similarities of a query against the matrix rows
(`cosine_similarity(...).flatten()`) are a parameter, and the whole
`try`-guarded dense branch (embedding call plus `query_faiss` plus result
tagging) is a parameter giving either its result list or the exception it
raised.
-/

/-- A scipy CSR sparse matrix, reduced to what the retriever observes of it:
its shape and its number of stored entries. -/
structure SparseMat where
  rows : ℕ
  cols : ℕ
  nnz : ℕ
deriving Repr, DecidableEq

/-- Python truthiness of `self.tfidf_matrix` (an `Option`al scipy sparse
matrix): `None` is falsy; a sparse matrix is truthy iff its single entry is
non-zero when its shape is `1×1`, and raises
`ValueError: The truth value of an array with more than one element is ambiguous.`
otherwise (scipy `_data_matrix.__bool__`). -/
def sparseTruthiness : Option SparseMat → Except String Bool
  | none => .ok false
  | some m =>
    if m.rows = 1 ∧ m.cols = 1 then .ok (m.nnz ≠ 0)
    else .error "ValueError: The truth value of an array with more than one element is ambiguous."

/-- A chunk as consumed by `HybridRetriever` (a dict with at least
`id` and `chunk_text`). -/
structure Chunk where
  id : String
  chunk_text : String
deriving Repr, DecidableEq

/-- A retrieval result dict (`id`, `score`, `method`, optional
`matched_terms`, `chunk_text`). -/
structure RResult where
  id : String
  score : ℚ
  method : String
  matchedTerms : List String
  chunkText : String
deriving Repr, DecidableEq

/-- The mutable state of a `HybridRetriever`: `self.tfidf_matrix` and
`self.chunk_texts`. -/
structure RetrieverState where
  tfidf_matrix : Option SparseMat
  chunk_texts : List String
deriving Repr, DecidableEq

/-- `HybridRetriever.build_tfidf_index`: stores the chunk texts and fits the
vectorizer on them when they are non-empty (`if self.chunk_texts:`);
with no texts the old matrix is left in place.  `fitTransform` stands for
`self.tfidf_vectorizer.fit_transform`. -/
def build_tfidf_index (fitTransform : List String → SparseMat)
    (chunks : List Chunk) (st : RetrieverState) : RetrieverState :=
  let texts := chunks.map (fun c => c.chunk_text)
  { chunk_texts := texts
    tfidf_matrix := if texts.isEmpty then st.tfidf_matrix else some (fitTransform texts) }

/-- Python word tokens: `re.findall(r'\b\w+\b', s)` = the maximal runs of
word characters (modelled for ASCII text: alphanumerics and underscore). -/
def wordChar (c : Char) : Bool := c.isAlphanum || c = '_'

/-- Accumulator pass for `tokenize`: `cur` is the reversed current run. -/
def tokensGo : List Char → List Char → List String
  | [], cur => if cur.isEmpty then [] else [String.mk cur.reverse]
  | c :: cs, cur =>
    if wordChar c then tokensGo cs (c :: cur)
    else if cur.isEmpty then tokensGo cs cur
    else String.mk cur.reverse :: tokensGo cs []

/-- `re.findall(r'\b\w+\b', s.lower())`. -/
def tokenize (s : String) : List String :=
  tokensGo (s.data.map Char.toLower) []

/-- Generic first-occurrence deduplication by a string key, with an explicit
`seen` accumulator — the loop of `hybrid_search` lines 118–124, also used to
model Python `set` cardinalities. -/
def dedupByGo {α : Type} (key : α → String) : List α → List String → List α
  | [], _ => []
  | r :: rs, seen =>
    if seen.contains (key r) then dedupByGo key rs seen
    else r :: dedupByGo key rs (key r :: seen)

/-- The distinct elements of a list of strings, first occurrences kept
(the underlying set of a Python `set(...)`). -/
def distinctStr (l : List String) : List String := dedupByGo id l []

/-- The deduplication loop of `hybrid_search`: keep each result whose `id`
was not already seen. -/
def dedupById (l : List RResult) : List RResult := dedupByGo (fun r => r.id) l []

/-- The loop body of `HybridRetriever.exact_keyword_match` (lines 60–72):
one scored candidate per chunk with at least one matching term, in chunk
order — the score is the fraction of the query's distinct terms appearing
among the chunk's terms. -/
def exactCandidates (query : String) (chunks : List Chunk) : List RResult :=
  let query_terms := distinctStr (tokenize query)
  chunks.filterMap (fun chunk =>
    let chunk_terms := tokenize chunk.chunk_text
    let found := query_terms.filter (fun t => chunk_terms.contains t)
    if found.isEmpty then none
    else some ⟨chunk.id, (found.length : ℚ) / (query_terms.length : ℚ),
      "exact_match", found, chunk.chunk_text⟩)

/-- `HybridRetriever.exact_keyword_match`: the candidates, stable-sorted by
score descending, first 10 kept. -/
def exact_keyword_match (query : String) (chunks : List Chunk) : List RResult :=
  (sortByScoreDesc (fun r => r.score) (exactCandidates query chunks)).take 10

/-- `similarities[i]` (out-of-range reads never occur; 0 as a default). -/
def simAt (sims : List ℚ) (i : ℕ) : ℚ := sims.getD i 0

/-- Comparison realising a stable ascending `np.argsort` over the
similarity values: by value, then by position. -/
def kwLe (sims : List ℚ) (i j : ℕ) : Bool :=
  decide (simAt sims i < simAt sims j ∨ (simAt sims i = simAt sims j ∧ i ≤ j))

/-- `np.argsort(similarities)` (stable model: equal values keep ascending
position order, matching numpy's behaviour on the inputs used here). -/
def argsortAsc (sims : List ℚ) : List ℕ :=
  sortBy (kwLe sims) (List.range sims.length)

/-- `np.argsort(similarities)[::-1][:top_k]` followed by the
`if similarities[idx] > 0` filter of the result loop. -/
def kwIndices (sims : List ℚ) (top_k : ℕ) : List ℕ :=
  ((argsortAsc sims).reverse.take top_k).filter (fun i => decide (0 < simAt sims i))

/-- `HybridRetriever.keyword_search`, with the computed cosine similarities
of the query against the TF-IDF matrix rows passed in as `sims`: returns
`[]` when no TF-IDF matrix exists, else the positive-similarity entries of
the reversed argsort, as synthetic `keyword_{idx}` results. -/
def keyword_search (st : RetrieverState) (sims : List ℚ) (top_k : ℕ) : List RResult :=
  match st.tfidf_matrix with
  | none => []
  | some _ =>
    (kwIndices sims top_k).map (fun i =>
      ⟨"keyword_" ++ toString i, simAt sims i, "keyword_search", [], st.chunk_texts.getD i ""⟩)

/-- The `try`/`except` of the dense branch (lines 90–106): its result list
on success, `dense_results = []` when it raised. -/
def denseResults (dense : Except String (List RResult)) : List RResult :=
  match dense with
  | .ok rs => rs
  | .error _ => []

/-- `HybridRetriever.hybrid_search`.  `fitTransform` abstracts the sklearn
fit; `dense` abstracts the entire `try`-guarded dense branch (embedding call
plus `query_faiss` plus tagging), as either its produced list or the
exception it raised (which the source catches, keeping `dense_results = []`);
`sims` abstracts the cosine similarities used by `keyword_search`.
The `if not self.tfidf_matrix:` test evaluates Python truthiness of the
cached sparse matrix and therefore can itself raise, which no handler
catches — this is the returned `.error` case. -/
def hybrid_search (fitTransform : List String → SparseMat)
    (dense : Except String (List RResult)) (sims : List ℚ)
    (query : String) (chunks : List Chunk) (top_k : ℕ)
    (st : RetrieverState) : Except String (List RResult × RetrieverState) :=
  match sparseTruthiness st.tfidf_matrix with
  | .error e => .error e
  | .ok truthy =>
    let st1 := if truthy then st else build_tfidf_index fitTransform chunks st
    let dense_results := denseResults dense
    let keyword_results := keyword_search st1 sims top_k
    let exact_results := exact_keyword_match query chunks
    let all_results := dense_results ++ keyword_results ++ exact_results
    let final_results := sortByScoreDesc (fun r => r.score) (dedupById all_results)
    .ok (final_results.take top_k, st1)

/-!
## Response formatter model (app/query/formatter.py)
-/

/-- Does the character list `need` occur at the start of `hay`?
(List-level model of Python string prefix testing.) -/
def beginsWith : List Char → List Char → Bool
  | [], _ => true
  | _ :: _, [] => false
  | a :: as, b :: bs => a == b && beginsWith as bs

/-- Python's substring test `need in hay` over character lists. -/
def containsSub (need : List Char) : List Char → Bool
  | [] => beginsWith need []
  | c :: t => beginsWith need (c :: t) || containsSub need t

/-- `need` occurs contiguously inside `hay`. -/
def SubstrOf (need hay : List Char) : Prop :=
  ∃ pre suf, hay = pre ++ need ++ suf

/-- `answer.lower()` as a character list. -/
def lowerChars (s : String) : List Char := s.data.map Char.toLower

/-- The `is_covered` field computed by
`AdvancedResponseFormatter._extract_coverage_details` (the other fields of
that dict are computed independently of this one): first the
covered/yes/eligible keywords are tested against the lower-cased answer,
then — only if none of them occurred — the not covered/no/excluded keywords. -/
def extract_is_covered (answer : String) : Option Bool :=
  let answer_lower := lowerChars answer
  if ["covered", "yes", "eligible"].any (fun w => containsSub w.data answer_lower) then
    some true
  else if ["not covered", "no", "excluded"].any (fun w => containsSub w.data answer_lower) then
    some false
  else
    none

/-- Integer floor of a rational (`q.num` and `q.den` are the reduced
numerator and positive denominator). -/
def ratFloor (q : ℚ) : ℤ := q.num.fdiv q.den

/-- Python's banker's rounding (`round(x, 3)` rounds half to even). -/
def roundHalfToEven (q : ℚ) : ℤ :=
  let f := ratFloor q
  if q - f < 1/2 then f
  else if (1/2 : ℚ) < q - f then f + 1
  else if f % 2 = 0 then f else f + 1

/-- `round(confidence, 3)`. -/
def pyRound3 (q : ℚ) : ℚ := (roundHalfToEven (q * 1000) : ℚ) / 1000

/-- A retrieved chunk as the formatter reads it: its `score`
(`chunk.get("score", 0)`) and `method` (`chunk.get("method", "unknown")`). -/
structure FChunk where
  score : ℚ
  method : String
deriving Repr, DecidableEq

/-- `AdvancedResponseFormatter._calculate_confidence`: zero on no chunks;
otherwise the average score, halved when below 0.3, plus a bonus of 0.1 per
distinct method capped at 0.3, the sum capped at 1.0 and rounded to three
decimals. -/
def calculate_confidence (chunks : List FChunk) : ℚ :=
  if chunks.isEmpty then 0
  else
    let scores := chunks.map (fun c => c.score)
    let avg_score := scores.sum / (scores.length : ℚ)
    let methods := distinctStr (chunks.map (fun c => c.method))
    let method_bonus := min ((methods.length : ℚ) * (1/10)) (3/10)
    let avg_score2 := if avg_score < 3/10 then avg_score * (1/2) else avg_score
    pyRound3 (min (avg_score2 + method_bonus) 1)

/-- The confidence formula as the spec words it: penalty factor decided by
the raw average, applied multiplicatively before the diversity bonus. -/
def specConfidence (chunks : List FChunk) : ℚ :=
  let scores := chunks.map (fun c => c.score)
  let avg := scores.sum / (scores.length : ℚ)
  let penalty : ℚ := if avg < 3/10 then 1/2 else 1
  let bonus := min ((distinctStr (chunks.map (fun c => c.method))).length * (1/10) : ℚ) (3/10)
  pyRound3 (min (avg * penalty + bonus) 1)

/-!
## Vector index model (app/vectorstore/faiss_client.py)

The configured metric is the default, cosine (`PINECONE_METRIC` unset), so
vectors are L2-normalised at insert and query time and the index is an
inner-product `IndexFlatIP`.  numpy floats are modelled as exact rationals;
`np.linalg.norm` is therefore modelled exactly on vectors whose squared norm
is a perfect rational square (`ratSqrt` below), and the theorems about
normalisation restrict themselves to such vectors.
-/

/-- Largest-candidate scan for a natural-number square root: greatest
`k ≤ bound` with `k * k ≤ n`, by structural countdown (kernel-reducible,
unlike `Nat.sqrt`). -/
def isqrtGo (n : ℕ) : ℕ → ℕ
  | 0 => 0
  | k + 1 => if (k + 1) * (k + 1) ≤ n then k + 1 else isqrtGo n k

def isqrt (n : ℕ) : ℕ := isqrtGo n n

/-- The exact rational square root, when it exists. -/
def ratSqrt (q : ℚ) : Option ℚ :=
  if q < 0 then none
  else
    let sn := isqrt q.num.toNat
    let sd := isqrt q.den
    if (sn : ℤ) * sn = q.num ∧ (sd : ℕ) * sd = q.den then some ((sn : ℚ) / (sd : ℚ))
    else none

/-- Inner product of two vectors (`np.dot` / the scores of `IndexFlatIP`). -/
def dotQ (v u : List ℚ) : ℚ := (List.zipWith (fun a b => a * b) v u).sum

/-- Squared L2 norm. -/
def normSq (v : List ℚ) : ℚ := dotQ v v

/-- `embedding / np.linalg.norm(embedding)` guarded by `if norm > 0:`
(lines 82–85 and 139–142).  Exact on vectors whose norm is rational;
a vector with an irrational norm is left unscaled by this model. -/
def normalizeVec (v : List ℚ) : List ℚ :=
  match ratSqrt (normSq v) with
  | some n => if 0 < n then v.map (fun x => x / n) else v
  | none => v

/-- A chunk as consumed by `upsert_to_faiss`: a dict with `id`, `embedding`
and `metadata` (the metadata payload kept opaque). -/
structure EmbChunk where
  id : String
  embedding : List ℚ
  metadata : String
deriving Repr, DecidableEq

/-- One entry of the parallel metadata table (`{"id": ..., "metadata": ...}`). -/
structure MetaEntry where
  id : String
  metadata : String
deriving Repr, DecidableEq

/-- The FAISS index object: its fixed dimension and its stored vectors in
insertion order. -/
structure FaissIndex where
  dim : ℕ
  vectors : List (List ℚ)
deriving Repr, DecidableEq

/-- The module state `(_index, _metadata)` after `_init_faiss`. -/
structure FaissState where
  index : Option FaissIndex
  metadata : List MetaEntry
deriving Repr, DecidableEq

/-- The state `_init_faiss` produces in a fresh deployment: no index files
exist on disk, so `_index = None` and `_metadata = []` (lines 42–45). -/
def freshFaissState : FaissState := ⟨none, []⟩

/-- `np.array(vectors).shape[1]`: a rectangular non-empty list of rows has a
second dimension; an empty list gives the 1-D shape `(0,)`, so reading
`shape[1]` raises IndexError; a ragged list already fails at `np.array`. -/
def arrayShape2 (vectors : List (List ℚ)) : Except String ℕ :=
  match vectors with
  | [] => .error "IndexError: tuple index out of range"
  | v :: vs =>
    if vs.all (fun u => u.length = v.length) then .ok v.length
    else .error "ValueError: setting an array element with a sequence"

/-- `index.add(vectors_array)`: requires a rectangular 2-D batch matching the
index dimension; an empty batch is the 1-D array `np.array([])`, which add
cannot unpack as `(n, d)`. -/
def faissAdd (idx : FaissIndex) (vectors : List (List ℚ)) : Except String FaissIndex :=
  match vectors with
  | [] => .error "ValueError: not enough values to unpack"
  | v :: vs =>
    if vs.all (fun u => u.length = v.length) ∧ v.length = idx.dim then
      .ok ⟨idx.dim, idx.vectors ++ vectors⟩
    else .error "AssertionError: dimension mismatch in index.add"

/-- `upsert_to_faiss`: normalise every embedding (cosine metric), create the
index on first use with the dimension read from `vectors_array.shape[1]`,
add the batch, extend the metadata table. -/
def upsert_to_faiss (st : FaissState) (chunks : List EmbChunk) : Except String FaissState :=
  let vectors := chunks.map (fun c => normalizeVec c.embedding)
  let new_metadata := chunks.map (fun c => MetaEntry.mk c.id c.metadata)
  match st.index with
  | none =>
    match arrayShape2 vectors with
    | .error e => .error e
    | .ok dim =>
      match faissAdd ⟨dim, []⟩ vectors with
      | .error e => .error e
      | .ok idx => .ok ⟨some idx, st.metadata ++ new_metadata⟩
  | some idx0 =>
    match faissAdd idx0 vectors with
    | .error e => .error e
    | .ok idx => .ok ⟨some idx, st.metadata ++ new_metadata⟩

/-- A query result dict (`id`, `score`, `metadata`). -/
structure QResult where
  id : String
  score : ℚ
  metadata : String
deriving Repr, DecidableEq

/-- Result order of the exhaustive `IndexFlatIP` search: descending score;
equal scores are modelled as returned in insertion order. -/
def faissSearchLe (scores : List ℚ) (i j : ℕ) : Bool :=
  decide (simAt scores j < simAt scores i ∨ (simAt scores j = simAt scores i ∧ i ≤ j))

/-- `query_faiss`: reading `index.ntotal` on the fresh (`None`) index raises;
an existing empty index returns `[]`; otherwise the query vector is
normalised, all inner products taken, and the best `min(top_k, ntotal)`
positions are returned with their metadata (positions beyond the metadata
table are skipped by the `if idx < len(metadata)` guard). -/
def query_faiss (st : FaissState) (query_embedding : List ℚ) (top_k : ℕ) :
    Except String (List QResult) :=
  match st.index with
  | none => .error "AttributeError: NoneType object has no attribute ntotal"
  | some idx =>
    if idx.vectors.length = 0 then .ok []
    else
      let query_vector := normalizeVec query_embedding
      let scores := idx.vectors.map (fun v => dotQ query_vector v)
      let order := (sortBy (faissSearchLe scores) (List.range idx.vectors.length)).take
        (min top_k idx.vectors.length)
      .ok (order.filterMap (fun i =>
        if i < st.metadata.length then
          some ⟨(st.metadata.getD i (MetaEntry.mk "" "")).id, simAt scores i,
            (st.metadata.getD i (MetaEntry.mk "" "")).metadata⟩
        else none))

/-!
## Bridging lemmas
-/

theorem beginsWith_iff (need : List Char) : ∀ hay : List Char,
    beginsWith need hay = true ↔ ∃ suf, hay = need ++ suf := by
  induction need with
  | nil =>
    intro hay
    constructor
    · intro _
      exact ⟨hay, rfl⟩
    · intro _
      rfl
  | cons a as ih =>
    intro hay
    cases hay with
    | nil =>
      simp [beginsWith]
    | cons b bs =>
      simp only [beginsWith, Bool.and_eq_true, beq_iff_eq, ih, List.cons_append,
        List.cons.injEq]
      constructor
      · rintro ⟨rfl, suf, rfl⟩
        exact ⟨suf, rfl, rfl⟩
      · rintro ⟨suf, rfl, rfl⟩
        exact ⟨rfl, suf, rfl⟩

theorem containsSub_iff (need : List Char) : ∀ hay : List Char,
    containsSub need hay = true ↔ SubstrOf need hay := by
  intro hay
  induction hay with
  | nil =>
    simp only [containsSub, beginsWith_iff, SubstrOf]
    constructor
    · rintro ⟨suf, h⟩
      exact ⟨[], suf, by simpa using h⟩
    · rintro ⟨pre, suf, h⟩
      rcases List.append_eq_nil.1 h.symm with ⟨h1, h2⟩
      rcases List.append_eq_nil.1 h1 with ⟨h3, h4⟩
      exact ⟨[], by simp [h4]⟩
  | cons c t ih =>
    simp only [containsSub, Bool.or_eq_true, beginsWith_iff, ih, SubstrOf]
    constructor
    · rintro (⟨suf, h⟩ | ⟨pre, suf, h⟩)
      · exact ⟨[], suf, by simpa using h⟩
      · exact ⟨c :: pre, suf, by simp [h]⟩
    · rintro ⟨pre, suf, h⟩
      cases pre with
      | nil =>
        exact Or.inl ⟨suf, by simpa using h⟩
      | cons p ps =>
        rw [List.cons_append, List.cons_append] at h
        injection h with hc ht
        exact Or.inr ⟨ps, suf, ht⟩

/-!
## Claims
-/

/-- **C10** (confirmed): calling `upsert_to_faiss` with an empty chunk list
when no index exists yet is not a no-op: it raises an IndexError (the
dimension is read from `shape[1]` of the empty 1-D vector array) instead of
returning normally with the state unchanged. -/
theorem c10_empty_upsert_raises : ∀ meta : List MetaEntry,
    upsert_to_faiss ⟨none, meta⟩ [] = .error "IndexError: tuple index out of range" ∧
      ∀ st' : FaissState, upsert_to_faiss ⟨none, meta⟩ [] ≠ .ok st' := by
  intro meta
  exact ⟨rfl, fun st' h => by simp [upsert_to_faiss, arrayShape2] at h⟩

/-- **C3** (code bug): querying the Vector Index when it is empty because no
vector has ever been upserted does NOT return `[]`: the fresh state has
`_index = None`, and `query_faiss` immediately reads `index.ntotal`, raising
an AttributeError, for every input embedding and every `top_k`. -/
theorem c3_fresh_query_raises : ∀ (emb : List ℚ) (top_k : ℕ),
    query_faiss freshFaissState emb top_k =
      .error "AttributeError: NoneType object has no attribute ntotal" := by
  intro emb top_k
  rfl

/-- **C2** (counterexample): the answer `"not covered"` contains the phrase
`not covered`, yet `is_covered` is set to `true`, not `false` — the
covered/yes/eligible check runs first and `"covered"` is a substring of
`"not covered"`. -/
theorem c2_counterexample :
    SubstrOf "not covered".data (lowerChars "not covered") ∧
      extract_is_covered "not covered" ≠ some false ∧
      extract_is_covered "not covered" = some true := by
  refine ⟨⟨[], [], by decide⟩, ?_, ?_⟩ <;> decide

/-- **C2** (amended): the keyword checks are ordered.  An answer whose
lower-casing contains `covered`, `yes` or `eligible` gets `is_covered =
true` — this takes precedence, so an answer containing `not covered` also
gets `true`; only an answer containing none of those three but containing
`not covered`, `no` or `excluded` gets `false`; with neither family present
the field stays unknown (`none`). -/
theorem c2_amended : ∀ answer : String,
    ((∃ w ∈ (["covered", "yes", "eligible"] : List String),
        SubstrOf w.data (lowerChars answer)) →
      extract_is_covered answer = some true) ∧
    ((¬ ∃ w ∈ (["covered", "yes", "eligible"] : List String),
        SubstrOf w.data (lowerChars answer)) →
      (∃ w ∈ (["not covered", "no", "excluded"] : List String),
        SubstrOf w.data (lowerChars answer)) →
      extract_is_covered answer = some false) ∧
    ((¬ ∃ w ∈ (["covered", "yes", "eligible"] : List String),
        SubstrOf w.data (lowerChars answer)) →
      (¬ ∃ w ∈ (["not covered", "no", "excluded"] : List String),
        SubstrOf w.data (lowerChars answer)) →
      extract_is_covered answer = none) := by
  intro answer
  have hany : ∀ ws : List String,
      (ws.any (fun w => containsSub w.data (lowerChars answer)) = true) ↔
        ∃ w ∈ ws, SubstrOf w.data (lowerChars answer) := by
    intro ws
    simp only [List.any_eq_true, containsSub_iff]
  refine ⟨?_, ?_, ?_⟩
  · intro h
    rw [extract_is_covered, if_pos ((hany _).2 h)]
  · intro h1 h2
    rw [extract_is_covered, if_neg (fun hc => h1 ((hany _).1 hc)),
      if_pos ((hany _).2 h2)]
  · intro h1 h2
    rw [extract_is_covered, if_neg (fun hc => h1 ((hany _).1 hc)),
      if_neg (fun hc => h2 ((hany _).1 hc))]

/-- Witness for `c2_amended` at the concrete answer `"it is covered"`. -/
theorem c2_amended_witness : extract_is_covered "it is covered" = some true :=
  (c2_amended "it is covered").1 ⟨"covered", by decide, ⟨"it is ".data, [], by decide⟩⟩

theorem pyRound3_one : pyRound3 1 = 1 := by
  have e1 : (1 : ℚ) * 1000 = 1000 := by norm_num
  have f : ratFloor 1000 = 1000 := by decide
  rw [pyRound3, e1]
  rw [roundHalfToEven]
  simp only [f]
  norm_num

/-- **C6** (confirmed): for non-empty retrieved lists the confidence equals
`min(average(scores) * penalty + method_diversity_bonus, 1.0)` rounded to 3
decimals with `penalty = 0.5` iff the average is below `0.3` and bonus
`min(0.1 * distinct_method_count, 0.3)`; an empty retrieved list gives
confidence `0.0`; and scores `[0.9, 0.8]` from two distinct methods give
confidence `1.0`. -/
theorem c6_confidence :
    (∀ chunks : List FChunk, chunks ≠ [] →
      calculate_confidence chunks = specConfidence chunks) ∧
    calculate_confidence [] = 0 ∧
    calculate_confidence
      [⟨9/10, "semantic_search"⟩, ⟨8/10, "keyword_search"⟩] = 1 := by
  refine ⟨?_, rfl, ?_⟩
  · intro chunks hne
    have hiso : chunks.isEmpty = false := by
      cases chunks with
      | nil => exact absurd rfl hne
      | cons a l => rfl
    rw [calculate_confidence, specConfidence]
    simp only [hiso, Bool.false_eq_true, if_false]
    by_cases hc : (chunks.map (fun c => c.score)).sum /
        ((chunks.map (fun c => c.score)).length : ℚ) < 3/10
    · simp [hc]
    · simp [hc]
  · rw [calculate_confidence]
    have hs : "keyword_search" ≠ "semantic_search" := by decide
    norm_num [distinctStr, dedupByGo, hs, min_def, pyRound3_one]

/-- Witness for the conditional part of `c6_confidence` at a concrete
one-element retrieved list. -/
theorem c6_confidence_witness :
    calculate_confidence [⟨1/2, "exact_match"⟩] =
      specConfidence [⟨1/2, "exact_match"⟩] :=
  c6_confidence.1 [⟨1/2, "exact_match"⟩] (by simp)

theorem dedupByGo_sublist {α : Type} (key : α → String) :
    ∀ (l : List α) (seen : List String), (dedupByGo key l seen).Sublist l := by
  intro l
  induction l with
  | nil => intro seen; simp [dedupByGo]
  | cons a as ih =>
    intro seen
    rw [dedupByGo]
    by_cases h : seen.contains (key a)
    · rw [if_pos h]
      exact (ih seen).cons a
    · rw [if_neg h]
      exact (ih _).cons₂ a

theorem dedupByGo_not_seen {α : Type} (key : α → String) :
    ∀ (l : List α) (seen : List String) (x : α), x ∈ dedupByGo key l seen →
      seen.contains (key x) = false := by
  intro l
  induction l with
  | nil =>
    intro seen x hx
    simp [dedupByGo] at hx
  | cons a as ih =>
    intro seen x hx
    rw [dedupByGo] at hx
    by_cases h : seen.contains (key a)
    · rw [if_pos h] at hx
      exact ih seen x hx
    · rw [if_neg h] at hx
      rcases List.mem_cons.1 hx with rfl | hx
      · exact Bool.eq_false_iff.2 h
      · have h2 := ih _ x hx
        rw [List.contains_cons] at h2
        exact (Bool.or_eq_false_iff.1 h2).2

theorem dedupByGo_map_nodup {α : Type} (key : α → String) :
    ∀ (l : List α) (seen : List String), ((dedupByGo key l seen).map key).Nodup := by
  intro l
  induction l with
  | nil =>
    intro seen
    simp [dedupByGo]
  | cons a as ih =>
    intro seen
    rw [dedupByGo]
    by_cases h : seen.contains (key a)
    · rw [if_pos h]
      exact ih seen
    · rw [if_neg h]
      simp only [List.map_cons, List.nodup_cons]
      refine ⟨?_, ih _⟩
      intro hmem
      rcases List.mem_map.1 hmem with ⟨x, hx, hkx⟩
      have h2 := dedupByGo_not_seen key as _ x hx
      rw [List.contains_cons] at h2
      have h3 := (Bool.or_eq_false_iff.1 h2).1
      rw [hkx] at h3
      simp at h3

theorem dedupByGo_mem_of_first {α : Type} (key : α → String) :
    ∀ (l : List α) (seen : List String) (i : ℕ) (hi : i < l.length),
      seen.contains (key (l.get ⟨i, hi⟩)) = false →
      (∀ j (hj : j < i), key (l.get ⟨j, lt_trans hj hi⟩) ≠ key (l.get ⟨i, hi⟩)) →
      l.get ⟨i, hi⟩ ∈ dedupByGo key l seen := by
  intro l
  induction l with
  | nil =>
    intro seen i hi
    exact absurd hi (Nat.not_lt_zero i)
  | cons a as ih =>
    intro seen i hi hseen hfirst
    rw [dedupByGo]
    cases i with
    | zero =>
      have hs : seen.contains (key a) = false := hseen
      rw [if_neg (fun hc => Bool.noConfusion (hs ▸ hc))]
      exact List.mem_cons_self _ _
    | succ i' =>
      have hi' : i' < as.length := Nat.lt_of_succ_lt_succ hi
      by_cases h : seen.contains (key a)
      · rw [if_pos h]
        refine ih seen i' hi' hseen ?_
        intro j hj
        exact hfirst (j + 1) (Nat.succ_lt_succ hj)
      · rw [if_neg h]
        refine List.mem_cons.2 (Or.inr ?_)
        refine ih (key a :: seen) i' hi' ?_ ?_
        · rw [List.contains_cons, Bool.or_eq_false_iff]
          refine ⟨?_, hseen⟩
          have h0 := hfirst 0 (Nat.succ_pos i')
          exact beq_eq_false_iff_ne.2 (Ne.symm h0)
        · intro j hj
          exact hfirst (j + 1) (Nat.succ_lt_succ hj)

/-- **C4** (confirmed): the ranked list is built from the concatenation
semantic ++ keyword ++ exact, deduplicated by id keeping first occurrences:
the pipeline equation, survival of every result whose id has not appeared
earlier in the concatenation, order preservation (the deduplicated list is a
sublist of the concatenation), and id-uniqueness of the result. -/
theorem c4_dedup_first_occurrence :
    (∀ (fitTransform : List String → SparseMat) (dense : Except String (List RResult))
        (sims : List ℚ) (query : String) (chunks : List Chunk) (top_k : ℕ)
        (st : RetrieverState) (out : List RResult) (st1 : RetrieverState),
      hybrid_search fitTransform dense sims query chunks top_k st = .ok (out, st1) →
      out = (sortByScoreDesc (fun r => r.score) (dedupById
        (denseResults dense ++ keyword_search st1 sims top_k ++
          exact_keyword_match query chunks))).take top_k) ∧
    (∀ (l : List RResult) (i : ℕ) (hi : i < l.length),
      (∀ j (hj : j < i), (l.get ⟨j, lt_trans hj hi⟩).id ≠ (l.get ⟨i, hi⟩).id) →
      l.get ⟨i, hi⟩ ∈ dedupById l) ∧
    (∀ l : List RResult, (dedupById l).Sublist l) ∧
    (∀ l : List RResult, ((dedupById l).map (fun r => r.id)).Nodup) := by
  refine ⟨?_, ?_, ?_, ?_⟩
  · intro fitTransform dense sims query chunks top_k st out st1 h
    cases htr : sparseTruthiness st.tfidf_matrix with
    | error e =>
      simp only [hybrid_search, htr] at h
      exact Except.noConfusion h
    | ok truthy =>
      simp only [hybrid_search, htr, Except.ok.injEq, Prod.mk.injEq] at h
      rcases h with ⟨h1, h2⟩
      rw [← h1, ← h2]
  · intro l i hi hfirst
    exact dedupByGo_mem_of_first (fun r => r.id) l [] i hi rfl hfirst
  · intro l
    exact dedupByGo_sublist _ l []
  · intro l
    exact dedupByGo_map_nodup _ l []

/-- Witness for `c4_dedup_first_occurrence` (survival clause) at a concrete
two-element concatenation with distinct ids. -/
theorem c4_witness :
    (⟨"b", 2, "keyword_search", [], ""⟩ : RResult) ∈
      dedupById [⟨"a", 1, "semantic_search", [], ""⟩,
        ⟨"b", 2, "keyword_search", [], ""⟩] := by
  have hlt : (1 : ℕ) <
      ([⟨"a", 1, "semantic_search", [], ""⟩,
        ⟨"b", 2, "keyword_search", [], ""⟩] : List RResult).length := by
    decide
  have h := c4_dedup_first_occurrence.2.1
    [⟨"a", 1, "semantic_search", [], ""⟩, ⟨"b", 2, "keyword_search", [], ""⟩]
    1 hlt
    (fun j hj => by
      have hj0 : j = 0 := Nat.lt_one_iff.mp hj
      subst hj0
      exact (by decide : ("a" : String) ≠ "b"))
  exact h

/-- **C5** (confirmed): whenever `hybrid_search` returns a list, that list is
the stable score-descending sort of the deduplicated concatenation truncated
to `top_k`: it has at most `top_k` elements, is sorted by non-increasing
score, and the sort has no secondary tie-break (every score fiber keeps its
original relative order). -/
theorem c5_topk_sorted_stable :
    ∀ (fitTransform : List String → SparseMat) (dense : Except String (List RResult))
      (sims : List ℚ) (query : String) (chunks : List Chunk) (top_k : ℕ)
      (st : RetrieverState) (out : List RResult) (st1 : RetrieverState),
      hybrid_search fitTransform dense sims query chunks top_k st = .ok (out, st1) →
      out.length ≤ top_k ∧
      out.Pairwise (fun a b => b.score ≤ a.score) ∧
      out = (sortByScoreDesc (fun r => r.score) (dedupById
        (denseResults dense ++ keyword_search st1 sims top_k ++
          exact_keyword_match query chunks))).take top_k ∧
      (∀ s : ℚ,
        (sortByScoreDesc (fun r => r.score) (dedupById
          (denseResults dense ++ keyword_search st1 sims top_k ++
            exact_keyword_match query chunks))).filter (fun r => decide (r.score = s)) =
        (dedupById (denseResults dense ++ keyword_search st1 sims top_k ++
          exact_keyword_match query chunks)).filter (fun r => decide (r.score = s))) := by
  intro fitTransform dense sims query chunks top_k st out st1 h
  have heq : out = (sortByScoreDesc (fun r => r.score) (dedupById
      (denseResults dense ++ keyword_search st1 sims top_k ++
        exact_keyword_match query chunks))).take top_k := by
    cases htr : sparseTruthiness st.tfidf_matrix with
    | error e =>
      simp only [hybrid_search, htr] at h
      exact Except.noConfusion h
    | ok truthy =>
      simp only [hybrid_search, htr, Except.ok.injEq, Prod.mk.injEq] at h
      rcases h with ⟨h1, h2⟩
      rw [← h1, ← h2]
  refine ⟨?_, ?_, heq, fun s => sortByScoreDesc_stable _ s _⟩
  · rw [heq, List.length_take]
    exact min_le_left _ _
  · rw [heq]
    exact (sortByScoreDesc_sorted _ _).sublist (List.take_sublist _ _)

/-- Witness for `c5_topk_sorted_stable` at a concrete call: one dense
result, no keyword similarities, no chunks. -/
theorem c5_witness :
    (hybrid_search (fun texts => ⟨texts.length, 1, 1⟩)
        (.ok [⟨"d1", 1, "semantic_search", [], ""⟩]) [] "" [] 5 ⟨none, []⟩ =
      .ok ([⟨"d1", 1, "semantic_search", [], ""⟩], ⟨none, []⟩)) ∧
    ([(⟨"d1", 1, "semantic_search", [], ""⟩ : RResult)].length ≤ 5 ∧
      [(⟨"d1", 1, "semantic_search", [], ""⟩ : RResult)].Pairwise
        (fun a b => b.score ≤ a.score)) := by
  have h : hybrid_search (fun texts => (⟨texts.length, 1, 1⟩ : SparseMat))
      (.ok [⟨"d1", 1, "semantic_search", [], ""⟩]) [] "" [] 5 ⟨none, []⟩ =
      .ok ([⟨"d1", 1, "semantic_search", [], ""⟩], ⟨none, []⟩) := rfl
  have hc := c5_topk_sorted_stable _ _ _ _ _ _ _ _ _ h
  exact ⟨h, hc.1, hc.2.1⟩

/-- **C1** (code bug): `hybrid_search` does NOT always return a ranked list.
On a second call, `if not self.tfidf_matrix:` evaluates Python truthiness of
the cached scipy sparse matrix; with two chunks the fitted matrix has two
rows, so the test raises a ValueError that no handler catches, for any
outcome of the dense branch and any similarities — contradicting the
swallow-all-failures policy. -/
theorem c1_second_call_raises :
    ∀ (fitTransform : List String → SparseMat)
      (dense dense2 : Except String (List RResult)) (sims sims2 : List ℚ)
      (query query2 : String) (top_k top_k2 : ℕ)
      (out : List RResult) (st1 : RetrieverState),
      (fitTransform ["alpha beta", "gamma delta"]).rows = 2 →
      hybrid_search fitTransform dense sims query
        [⟨"c1", "alpha beta"⟩, ⟨"c2", "gamma delta"⟩] top_k ⟨none, []⟩ =
        .ok (out, st1) →
      hybrid_search fitTransform dense2 sims2 query2
        [⟨"c1", "alpha beta"⟩, ⟨"c2", "gamma delta"⟩] top_k2 st1 =
        .error "ValueError: The truth value of an array with more than one element is ambiguous." := by
  intro fitTransform dense dense2 sims sims2 query query2 top_k top_k2 out st1
  intro hrows h1
  have hst : st1 = build_tfidf_index fitTransform
      [⟨"c1", "alpha beta"⟩, ⟨"c2", "gamma delta"⟩] ⟨none, []⟩ := by
    simp only [hybrid_search, sparseTruthiness, Bool.false_eq_true, if_false,
      Except.ok.injEq, Prod.mk.injEq] at h1
    exact h1.2.symm
  have hmat : st1.tfidf_matrix =
      some (fitTransform ["alpha beta", "gamma delta"]) := by
    rw [hst]
    rfl
  have hne : ¬ ((fitTransform ["alpha beta", "gamma delta"]).rows = 1 ∧
      (fitTransform ["alpha beta", "gamma delta"]).cols = 1) := by
    rintro ⟨ha, _⟩
    rw [hrows] at ha
    exact absurd ha (by decide)
  simp only [hybrid_search, hmat, sparseTruthiness, if_neg hne]

/-- Witness for `c1_second_call_raises`: a concrete fit function and a
concrete first call. -/
theorem c1_witness :
    hybrid_search (fun ts => ⟨ts.length, 3, 4⟩) (.ok []) [] "q2"
      [⟨"c1", "alpha beta"⟩, ⟨"c2", "gamma delta"⟩] 10
      (build_tfidf_index (fun ts => ⟨ts.length, 3, 4⟩)
        [⟨"c1", "alpha beta"⟩, ⟨"c2", "gamma delta"⟩] ⟨none, []⟩) =
      .error "ValueError: The truth value of an array with more than one element is ambiguous." :=
  c1_second_call_raises (fun ts => ⟨ts.length, 3, 4⟩) (.ok []) (.ok []) [] []
    "" "q2" 0 10 []
    (build_tfidf_index (fun ts => ⟨ts.length, 3, 4⟩)
      [⟨"c1", "alpha beta"⟩, ⟨"c2", "gamma delta"⟩] ⟨none, []⟩)
    rfl rfl

/-- **C7** (counterexample): with two chunks of equal positive similarity
1/2, the Sparse Index search returns the chunks in REVERSE original order
(`np.argsort` ascending is reversed wholesale, so equal similarities come
out by descending position), refuting "ties broken by original chunk
order". -/
theorem c7_counterexample :
    kwIndices [1/2, 1/2] 10 = [1, 0] ∧
    (keyword_search ⟨some ⟨2, 2, 2⟩, ["t0", "t1"]⟩ [1/2, 1/2] 10).map
      (fun r => r.chunkText) = ["t1", "t0"] ∧
    (["t1", "t0"] : List String) ≠ ["t0", "t1"] := by
  have h1 : kwIndices [1/2, 1/2] 10 = [1, 0] := by
    norm_num [kwIndices, argsortAsc, sortBy, insertSorted, kwLe, simAt,
      List.range_succ]
  refine ⟨h1, ?_, by decide⟩
  show ((kwIndices [1/2, 1/2] 10).map _).map _ = _
  rw [h1]
  rfl

/-- **C7** (amended): the Sparse Index search returns exactly the
positive-similarity entries of the reversed ascending argsort truncated to
`top_k`: at most `top_k` results, every returned similarity strictly
positive, ordered by descending similarity — but ties come out in
DESCENDING original chunk order (the reversal of the stable ascending
argsort), not ascending. -/
theorem c7_amended :
    ∀ (st : RetrieverState) (m : SparseMat) (sims : List ℚ) (top_k : ℕ),
      st.tfidf_matrix = some m →
      keyword_search st sims top_k =
        (kwIndices sims top_k).map (fun i =>
          ⟨"keyword_" ++ toString i, simAt sims i, "keyword_search", [],
            st.chunk_texts.getD i ""⟩) ∧
      (∀ i ∈ kwIndices sims top_k, 0 < simAt sims i) ∧
      (kwIndices sims top_k).length ≤ top_k ∧
      (kwIndices sims top_k).Pairwise (fun i j =>
        simAt sims j < simAt sims i ∨ (simAt sims j = simAt sims i ∧ j < i)) := by
  intro st m sims top_k hmat
  refine ⟨by rw [keyword_search, hmat], ?_, ?_, ?_⟩
  · intro i hi
    have := List.of_mem_filter hi
    exact of_decide_eq_true this
  · calc (kwIndices sims top_k).length
        ≤ ((argsortAsc sims).reverse.take top_k).length :=
          List.length_filter_le _ _
      _ ≤ top_k := by
          rw [List.length_take]
          exact min_le_left _ _
  · have hnodup : (argsortAsc sims).Nodup :=
      (sortBy_perm _ _).nodup_iff.2 (List.nodup_range _)
    have hsorted := sortBy_pairwise (kwLe sims)
      (by
        intro a b c hab hbc
        simp only [kwLe, decide_eq_true_eq] at *
        rcases hab with h1 | ⟨h1, h2⟩ <;> rcases hbc with h3 | ⟨h3, h4⟩
        · exact Or.inl (lt_trans h1 h3)
        · exact Or.inl (h3 ▸ h1)
        · exact Or.inl (h1 ▸ h3)
        · exact Or.inr ⟨h1.trans h3, le_trans h2 h4⟩)
      (by
        intro a b
        simp only [kwLe, decide_eq_true_eq]
        rcases lt_trichotomy (simAt sims a) (simAt sims b) with h | h | h
        · exact Or.inl (Or.inl h)
        · rcases le_total a b with h2 | h2
          · exact Or.inl (Or.inr ⟨h, h2⟩)
          · exact Or.inr (Or.inr ⟨h.symm, h2⟩)
        · exact Or.inr (Or.inl h))
      (List.range sims.length)
    have hstrict : (argsortAsc sims).Pairwise (fun i j =>
        simAt sims i < simAt sims j ∨ (simAt sims i = simAt sims j ∧ i < j)) := by
      have hand := hsorted.and hnodup
      refine hand.imp ?_
      intro i j hij
      rcases hij with ⟨h1, h2⟩
      simp only [kwLe, decide_eq_true_eq] at h1
      rcases h1 with h1 | ⟨h1, h3⟩
      · exact Or.inl h1
      · exact Or.inr ⟨h1, lt_of_le_of_ne h3 h2⟩
    have hrev : (argsortAsc sims).reverse.Pairwise (fun i j =>
        simAt sims j < simAt sims i ∨ (simAt sims j = simAt sims i ∧ j < i)) := by
      rw [List.pairwise_reverse]
      exact hstrict
    exact ((hrev.sublist (List.take_sublist _ _)).sublist
      (List.filter_sublist _))

/-- Witness for `c7_amended` at a one-chunk state with similarity 1. -/
theorem c7_amended_witness :
    keyword_search ⟨some ⟨1, 1, 1⟩, ["t"]⟩ [1] 5 =
      (kwIndices [1] 5).map (fun i =>
        ⟨"keyword_" ++ toString i, simAt [1] i, "keyword_search", [],
          (["t"] : List String).getD i ""⟩) ∧
    (kwIndices [1] 5).length ≤ 5 :=
  ⟨(c7_amended ⟨some ⟨1, 1, 1⟩, ["t"]⟩ ⟨1, 1, 1⟩ [1] 5 rfl).1,
    (c7_amended ⟨some ⟨1, 1, 1⟩, ["t"]⟩ ⟨1, 1, 1⟩ [1] 5 rfl).2.2.1⟩

/-- **C8** (confirmed): the Exact Matcher's output is the stable
score-descending sort of the in-order candidate list truncated to 10; every
candidate's score is `|matches| / |query_terms|` over lower-cased word
tokens with a non-empty match set (so the division is only reached with a
non-empty query-term set); ties keep original chunk order; a query matching
no chunk gives `[]`; an empty query gives `[]`. -/
theorem c8_exact_matcher : ∀ (query : String) (chunks : List Chunk),
    exact_keyword_match query chunks =
      (sortByScoreDesc (fun r => r.score) (exactCandidates query chunks)).take 10 ∧
    (exact_keyword_match query chunks).length ≤ 10 ∧
    (exact_keyword_match query chunks).Pairwise (fun a b => b.score ≤ a.score) ∧
    (∀ s : ℚ,
      (sortByScoreDesc (fun r => r.score) (exactCandidates query chunks)).filter
        (fun r => decide (r.score = s)) =
      (exactCandidates query chunks).filter (fun r => decide (r.score = s))) ∧
    (∀ r ∈ exactCandidates query chunks, ∃ c ∈ chunks,
      r.id = c.id ∧
      r.matchedTerms = (distinctStr (tokenize query)).filter
        (fun t => (tokenize c.chunk_text).contains t) ∧
      r.matchedTerms ≠ [] ∧
      r.score = (r.matchedTerms.length : ℚ) /
        ((distinctStr (tokenize query)).length : ℚ) ∧
      0 < (distinctStr (tokenize query)).length) ∧
    ((∀ c ∈ chunks, ∀ t ∈ distinctStr (tokenize query),
        (tokenize c.chunk_text).contains t = false) →
      exact_keyword_match query chunks = []) ∧
    (tokenize query = [] → exact_keyword_match query chunks = []) := by
  intro query chunks
  have hcand : ∀ r ∈ exactCandidates query chunks, ∃ c ∈ chunks,
      r.id = c.id ∧
      r.matchedTerms = (distinctStr (tokenize query)).filter
        (fun t => (tokenize c.chunk_text).contains t) ∧
      r.matchedTerms ≠ [] ∧
      r.score = (r.matchedTerms.length : ℚ) /
        ((distinctStr (tokenize query)).length : ℚ) ∧
      0 < (distinctStr (tokenize query)).length := by
    intro r hr
    rw [exactCandidates] at hr
    rcases List.mem_filterMap.1 hr with ⟨c, hc, hfc⟩
    by_cases hemp : ((distinctStr (tokenize query)).filter
        (fun t => (tokenize c.chunk_text).contains t)).isEmpty
    · rw [if_pos hemp] at hfc
      exact absurd hfc (by simp)
    · rw [if_neg hemp] at hfc
      have hr' := Option.some.injEq .. ▸ hfc
      refine ⟨c, hc, ?_⟩
      rw [← hr']
      have hne : (distinctStr (tokenize query)).filter
          (fun t => (tokenize c.chunk_text).contains t) ≠ [] := by
        intro hnil
        rw [hnil] at hemp
        exact hemp rfl
      refine ⟨rfl, rfl, hne, rfl, ?_⟩
      rcases List.exists_mem_of_ne_nil _ hne with ⟨t, ht⟩
      have htq := List.mem_of_mem_filter ht
      exact List.length_pos_of_mem htq
  refine ⟨rfl, ?_, ?_, fun s => sortByScoreDesc_stable _ s _, hcand, ?_, ?_⟩
  · rw [exact_keyword_match, List.length_take]
    exact min_le_left _ _
  · rw [exact_keyword_match]
    exact (sortByScoreDesc_sorted _ _).sublist (List.take_sublist _ _)
  · intro hnone
    have hcands : exactCandidates query chunks = [] := by
      rw [exactCandidates]
      rw [List.filterMap_eq_nil_iff]
      intro c hc
      have hfil : (distinctStr (tokenize query)).filter
          (fun t => (tokenize c.chunk_text).contains t) = [] := by
        rw [List.filter_eq_nil_iff]
        intro t ht
        rw [hnone c hc t ht]
        exact Bool.false_ne_true
      simp only [hfil]
      rfl
    rw [exact_keyword_match, hcands]
    rfl
  · intro hq
    have hcands : exactCandidates query chunks = [] := by
      rw [exactCandidates]
      rw [List.filterMap_eq_nil_iff]
      intro c hc
      have : distinctStr (tokenize query) = [] := by
        rw [hq]
        rfl
      simp only [this]
      rfl
    rw [exact_keyword_match, hcands]
    rfl

/-- Witness for `c8_exact_matcher`: the empty query returns no results on a
concrete chunk list. -/
theorem c8_witness : exact_keyword_match "" [⟨"c1", "alpha"⟩] = [] :=
  (c8_exact_matcher "" [⟨"c1", "alpha"⟩]).2.2.2.2.2.2 rfl

/-!
## Vector algebra for the round-trip claim
-/

theorem dotQ_nil_right (v : List ℚ) : dotQ v [] = 0 := by
  cases v <;> rfl

theorem dotQ_cons (x y : ℚ) (xs ys : List ℚ) :
    dotQ (x :: xs) (y :: ys) = x * y + dotQ xs ys := by
  simp [dotQ]

theorem normSq_cons (x : ℚ) (xs : List ℚ) :
    normSq (x :: xs) = x * x + normSq xs := by
  simp [normSq, dotQ]

theorem normSq_nonneg (v : List ℚ) : 0 ≤ normSq v := by
  induction v with
  | nil => simp [normSq, dotQ]
  | cons x xs ih =>
    rw [normSq_cons]
    nlinarith [mul_self_nonneg x]

/-- Expansion of the squared norm of `s·a - t·b`, the heart of the
Cauchy–Schwarz argument. -/
theorem normSq_smul_sub (s t : ℚ) : ∀ (a b : List ℚ), a.length = b.length →
    normSq (List.zipWith (fun x y => s * x - t * y) a b) =
      s ^ 2 * normSq a - 2 * s * t * dotQ a b + t ^ 2 * normSq b := by
  intro a
  induction a with
  | nil =>
    intro b hb
    cases b with
    | nil => simp [normSq, dotQ]
    | cons y ys => exact absurd hb (by simp)
  | cons x xs ih =>
    intro b hb
    cases b with
    | nil => exact absurd hb (by simp)
    | cons y ys =>
      have hlen : xs.length = ys.length := by
        simpa using hb
      simp only [List.zipWith_cons_cons, normSq_cons, dotQ_cons, ih ys hlen]
      ring

theorem all_zero_of_normSq_zero : ∀ b : List ℚ, normSq b = 0 → ∀ y ∈ b, y = 0 := by
  intro b
  induction b with
  | nil =>
    intro _ y hy
    cases hy
  | cons y ys ih =>
    intro h z hz
    rw [normSq_cons] at h
    have hy2 : y * y = 0 ∧ normSq ys = 0 := by
      constructor <;> nlinarith [mul_self_nonneg y, normSq_nonneg ys]
    rcases List.mem_cons.1 hz with rfl | hz
    · exact mul_self_eq_zero.1 hy2.1
    · exact ih hy2.2 z hz

theorem dotQ_zero_right : ∀ (a b : List ℚ), (∀ y ∈ b, y = 0) → dotQ a b = 0 := by
  intro a
  induction a with
  | nil =>
    intro b _
    cases b <;> rfl
  | cons x xs ih =>
    intro b h
    cases b with
    | nil => rfl
    | cons y ys =>
      rw [dotQ_cons, h y (List.mem_cons_self _ _),
        ih ys (fun z hz => h z (List.mem_cons_of_mem _ hz))]
      ring

theorem cauchy_schwarz_lists (a b : List ℚ) (h : a.length = b.length) :
    (dotQ a b) ^ 2 ≤ normSq a * normSq b := by
  have h0 := normSq_nonneg (List.zipWith
    (fun x y => normSq b * x - dotQ a b * y) a b)
  rw [normSq_smul_sub (normSq b) (dotQ a b) a b h] at h0
  have hb := normSq_nonneg b
  rcases eq_or_lt_of_le hb with hb0 | hbpos
  · have hd : dotQ a b = 0 :=
      dotQ_zero_right a b (all_zero_of_normSq_zero b hb0.symm)
    rw [hd, ← hb0]
    simp
  · nlinarith [h0, hbpos, sq_nonneg (dotQ a b)]

theorem isqrtGo_le (n : ℕ) : ∀ k : ℕ, isqrtGo n k ≤ k := by
  intro k
  induction k with
  | zero => simp [isqrtGo]
  | succ m ih =>
    rw [isqrtGo]
    by_cases h : (m + 1) * (m + 1) ≤ n
    · rw [if_pos h]
    · rw [if_neg h]
      exact le_trans ih (Nat.le_succ m)

theorem ratSqrt_correct (q r : ℚ) (h : ratSqrt q = some r) :
    0 ≤ r ∧ r * r = q := by
  rw [ratSqrt] at h
  by_cases hneg : q < 0
  · rw [if_pos hneg] at h
    exact absurd h (by simp)
  · rw [if_neg hneg] at h
    by_cases hsq : ((isqrt q.num.toNat : ℤ) * (isqrt q.num.toNat) = q.num ∧
        (isqrt q.den : ℕ) * (isqrt q.den) = q.den)
    · rw [if_pos hsq] at h
      have hr : r = ((isqrt q.num.toNat : ℚ) / (isqrt q.den : ℚ)) := by
        exact (Option.some.injEq .. ▸ h).symm
      have hd0 : (isqrt q.den : ℚ) ≠ 0 := by
        intro hz
        have : (isqrt q.den : ℕ) = 0 := by exact_mod_cast hz
        rw [this] at hsq
        have hden := hsq.2
        simp at hden
        exact q.den_nz hden.symm
      constructor
      · rw [hr]
        positivity
      · rw [hr]
        have : ((isqrt q.num.toNat : ℚ) / (isqrt q.den : ℚ)) *
            ((isqrt q.num.toNat : ℚ) / (isqrt q.den : ℚ)) =
            ((isqrt q.num.toNat : ℚ) * (isqrt q.num.toNat)) /
              ((isqrt q.den : ℚ) * (isqrt q.den)) := by
          field_simp
        rw [this]
        have hnum : ((isqrt q.num.toNat : ℚ) * (isqrt q.num.toNat)) = (q.num : ℚ) := by
          have h1 : ((isqrt q.num.toNat : ℤ) * (isqrt q.num.toNat) : ℤ) = q.num := hsq.1
          calc ((isqrt q.num.toNat : ℚ) * (isqrt q.num.toNat))
              = (((isqrt q.num.toNat : ℤ) * (isqrt q.num.toNat) : ℤ) : ℚ) := by
                push_cast
                ring
            _ = (q.num : ℚ) := by rw [h1]
        have hden : ((isqrt q.den : ℚ) * (isqrt q.den)) = (q.den : ℚ) := by
          have h1 : ((isqrt q.den : ℕ) * (isqrt q.den) : ℕ) = q.den := hsq.2
          calc ((isqrt q.den : ℚ) * (isqrt q.den))
              = (((isqrt q.den : ℕ) * (isqrt q.den) : ℕ) : ℚ) := by
                push_cast
                ring
            _ = (q.den : ℚ) := by rw [h1]
        rw [hnum, hden]
        exact Rat.num_div_den q
    · rw [if_neg hsq] at h
      exact absurd h (by simp)

theorem ratSqrt_one : ratSqrt 1 = some 1 := by
  have h1 : ratSqrt 1 = some ((1 : ℚ) / (1 : ℚ)) := by
    rw [ratSqrt]
    norm_num [isqrt, isqrtGo]
  rw [h1]
  norm_num

theorem normalizeVec_of_normSq_one (v : List ℚ) (h : normSq v = 1) :
    normalizeVec v = v := by
  rw [normalizeVec, h, ratSqrt_one]
  show (if 0 < (1 : ℚ) then List.map (fun x => x / (1 : ℚ)) v else v) = v
  rw [if_pos one_pos]
  simp

theorem normalizeVec_length (v : List ℚ) :
    (normalizeVec v).length = v.length := by
  rw [normalizeVec]
  cases ratSqrt (normSq v) with
  | none => rfl
  | some n =>
    show (if 0 < n then List.map (fun x => x / n) v else v).length = v.length
    by_cases h : 0 < n
    · rw [if_pos h]
      exact List.length_map _ _
    · rw [if_neg h]

/-- `upsert_to_faiss` on the fresh state with a non-empty rectangular batch:
the index dimension is the first normalised embedding's length, the vectors
and the metadata table are the normalised embeddings and `{id, metadata}`
records in chunk order. -/
theorem upsert_fresh (c0 : EmbChunk) (rest : List EmbChunk)
    (hrect : ∀ c' ∈ c0 :: rest,
      (normalizeVec c'.embedding).length = (normalizeVec c0.embedding).length) :
    upsert_to_faiss freshFaissState (c0 :: rest) =
      .ok ⟨some ⟨(normalizeVec c0.embedding).length,
          (c0 :: rest).map (fun c' => normalizeVec c'.embedding)⟩,
        (c0 :: rest).map (fun c' => MetaEntry.mk c'.id c'.metadata)⟩ := by
  have hall : (rest.map (fun c' => normalizeVec c'.embedding)).all
      (fun u => decide (u.length = (normalizeVec c0.embedding).length)) = true := by
    rw [List.all_eq_true]
    intro u hu
    rcases List.mem_map.1 hu with ⟨c', hc', rfl⟩
    exact decide_eq_true (hrect c' (List.mem_cons_of_mem _ hc'))
  rw [upsert_to_faiss]
  simp only [freshFaissState, List.map_cons, arrayShape2, faissAdd, hall,
    and_true, decide_True, if_pos, List.nil_append]

theorem faissSearchLe_trans (scores : List ℚ) :
    ∀ a b c, faissSearchLe scores a b = true → faissSearchLe scores b c = true →
      faissSearchLe scores a c = true := by
  intro a b c hab hbc
  simp only [faissSearchLe, decide_eq_true_eq] at *
  rcases hab with h1 | ⟨h1, h2⟩ <;> rcases hbc with h3 | ⟨h3, h4⟩
  · exact Or.inl (lt_trans h3 h1)
  · exact Or.inl (h3 ▸ h1)
  · exact Or.inl (h1 ▸ h3)
  · exact Or.inr ⟨h3.trans h1, le_trans h2 h4⟩

theorem faissSearchLe_total (scores : List ℚ) :
    ∀ a b, faissSearchLe scores a b = true ∨ faissSearchLe scores b a = true := by
  intro a b
  simp only [faissSearchLe, decide_eq_true_eq]
  rcases lt_trichotomy (simAt scores a) (simAt scores b) with h | h | h
  · exact Or.inr (Or.inl h)
  · rcases le_total a b with h2 | h2
    · exact Or.inl (Or.inr ⟨h.symm, h2⟩)
    · exact Or.inr (Or.inr ⟨h, h2⟩)
  · exact Or.inl (Or.inl h)

theorem filterMap_guard {α : Type} (d : ℕ) (f : ℕ → α) :
    ∀ l : List ℕ, (∀ i ∈ l, i < d) →
      l.filterMap (fun i => if i < d then some (f i) else none) = l.map f := by
  intro l
  induction l with
  | nil =>
    intro _
    rfl
  | cons a as ih =>
    intro h
    rw [List.filterMap_cons, if_pos (h a (List.mem_cons_self _ _)), List.map_cons,
      ih (fun i hi => h i (List.mem_cons_of_mem _ hi))]

/-- The sorted position list of the modelled FAISS search starts with a
position of maximal score, and every listed position is a valid index. -/
theorem faiss_order_spec (scores : List ℚ) (n : ℕ) (hn : 0 < n) :
    ∃ i0 tail, sortBy (faissSearchLe scores) (List.range n) = i0 :: tail ∧
      i0 < n ∧
      (∀ i, i < n → simAt scores i ≤ simAt scores i0) ∧
      (∀ i ∈ i0 :: tail, i < n) := by
  have hperm := sortBy_perm (faissSearchLe scores) (List.range n)
  have hlen : (sortBy (faissSearchLe scores) (List.range n)).length = n := by
    rw [hperm.length_eq, List.length_range]
  cases hfull : sortBy (faissSearchLe scores) (List.range n) with
  | nil =>
    rw [hfull] at hlen
    exact absurd hlen.symm (Nat.pos_iff_ne_zero.1 hn)
  | cons i0 tail =>
    have hmem : ∀ i ∈ i0 :: tail, i < n := by
      intro i hi
      have : i ∈ List.range n := hperm.mem_iff.1 (hfull ▸ hi)
      exact List.mem_range.1 this
    refine ⟨i0, tail, rfl, hmem i0 (List.mem_cons_self _ _), ?_, hmem⟩
    intro i hi
    have hisort := sortBy_pairwise (faissSearchLe scores)
      (faissSearchLe_trans scores) (faissSearchLe_total scores) (List.range n)
    rw [hfull] at hisort
    have hmemi : i ∈ i0 :: tail := by
      rw [← hfull]
      exact hperm.mem_iff.2 (List.mem_range.2 hi)
    rcases List.mem_cons.1 hmemi with rfl | hmemi
    · exact le_refl _
    · have := (List.pairwise_cons.1 hisort).1 i hmemi
      simp only [faissSearchLe, decide_eq_true_eq] at this
      rcases this with h | ⟨h, _⟩
      · exact le_of_lt h
      · exact le_of_eq h

theorem getD_eq_getElem {α : Type} (l : List α) (d : α) (i : ℕ) (h : i < l.length) :
    l.getD i d = l[i] := by
  simp [List.getD, List.getElem?_eq_getElem h]

/-- **C9** (amended): in the idealized rational model (embeddings whose norms
are exactly representable), a chunk upserted into the fresh Vector Index and
queried with its own post-normalization embedding yields a top result whose
score is the maximal achievable inner product 1, every returned score is at
most 1, and the top result carries the queried chunk's id provided every
other stored vector with inner product 1 against it shares that id (e.g.
when embeddings are pairwise distinct). -/
theorem c9_amended :
    ∀ (chunks : List EmbChunk) (c : EmbChunk) (st : FaissState) (top_k : ℕ),
      c ∈ chunks →
      1 ≤ top_k →
      (∀ c' ∈ chunks, (normalizeVec c'.embedding).length =
        (normalizeVec c.embedding).length) →
      normSq (normalizeVec c.embedding) = 1 →
      (∀ c' ∈ chunks, normSq (normalizeVec c'.embedding) ≤ 1) →
      (∀ c' ∈ chunks,
        dotQ (normalizeVec c.embedding) (normalizeVec c'.embedding) = 1 →
        c'.id = c.id) →
      upsert_to_faiss freshFaissState chunks = .ok st →
      ∃ r rest, query_faiss st (normalizeVec c.embedding) top_k = .ok (r :: rest) ∧
        r.id = c.id ∧ r.score = 1 ∧ ∀ x ∈ r :: rest, x.score ≤ 1 := by
  intro chunks c st top_k hc htop hlen hunit hle huni hup
  obtain ⟨c0, rest0, rfl⟩ := List.exists_cons_of_ne_nil (List.ne_nil_of_mem hc)
  have hrect : ∀ c' ∈ c0 :: rest0,
      (normalizeVec c'.embedding).length = (normalizeVec c0.embedding).length := by
    intro c' hc'
    rw [hlen c' hc', hlen c0 (List.mem_cons_self _ _)]
  have hst := upsert_fresh c0 rest0 hrect
  rw [hup] at hst
  have hst' := Except.ok.inj hst
  subst hst'
  set vc := normalizeVec c.embedding with hvc
  set vecs := (c0 :: rest0).map (fun c' => normalizeVec c'.embedding) with hvecs
  set metas := (c0 :: rest0).map (fun c' => MetaEntry.mk c'.id c'.metadata) with hmetas
  have hveclen : vecs.length = rest0.length + 1 := by
    rw [hvecs, List.length_map, List.length_cons]
  have hn0 : ¬ (vecs.length = 0) := by omega
  set scores := vecs.map (fun v => dotQ vc v) with hscores
  have hq0 : query_faiss ⟨some ⟨(normalizeVec c0.embedding).length, vecs⟩, metas⟩
      vc top_k =
      .ok (((sortBy (faissSearchLe scores) (List.range vecs.length)).take
        (min top_k vecs.length)).filterMap (fun i =>
          if i < metas.length then
            some ⟨(metas.getD i (MetaEntry.mk "" "")).id, simAt scores i,
              (metas.getD i (MetaEntry.mk "" "")).metadata⟩
          else none)) := by
    rw [query_faiss]
    show (if vecs.length = 0 then Except.ok [] else _) = _
    rw [if_neg hn0, normalizeVec_of_normSq_one _ hunit]
  have hmlen : metas.length = vecs.length := by
    rw [hmetas, hvecs, List.length_map, List.length_map]
  have hclen : (c0 :: rest0).length = vecs.length := by
    rw [hvecs, List.length_map]
  have hgetv : ∀ (i : ℕ) (hv : i < vecs.length) (hcl : i < (c0 :: rest0).length),
      vecs[i] = normalizeVec ((c0 :: rest0)[i]).embedding := by
    intro i hv hcl
    exact List.getElem_map _
  have hgetm : ∀ (i : ℕ) (hm : i < metas.length) (hcl : i < (c0 :: rest0).length),
      metas[i] = MetaEntry.mk ((c0 :: rest0)[i]).id ((c0 :: rest0)[i]).metadata := by
    intro i hm hcl
    exact List.getElem_map _
  have hsimAt : ∀ i (h : i < vecs.length), simAt scores i = dotQ vc vecs[i] := by
    intro i h
    rw [simAt, hscores]
    simp [List.getD, List.getElem?_map, List.getElem?_eq_getElem h]
  have hboundi : ∀ i (h : i < vecs.length), dotQ vc vecs[i] ≤ 1 := by
    intro i h
    have hcl : i < (c0 :: rest0).length := by omega
    obtain ⟨c', hc', hceq⟩ : ∃ c' ∈ c0 :: rest0,
        normalizeVec c'.embedding = vecs[i] :=
      ⟨(c0 :: rest0)[i], List.getElem_mem hcl, (hgetv i h hcl).symm⟩
    have hlv : vc.length = (vecs[i]).length := by
      rw [← hceq]
      exact (hlen c' hc').symm
    have hcs := cauchy_schwarz_lists vc (vecs[i]) hlv
    have hnorm : normSq vecs[i] ≤ 1 := by
      rw [← hceq]
      exact hle c' hc'
    have hnn : 0 ≤ normSq vecs[i] := normSq_nonneg _
    nlinarith [hcs, sq_nonneg (dotQ vc vecs[i] - 1)]
  obtain ⟨j, hjlt, hjc⟩ := List.getElem_of_mem hc
  have hjv : j < vecs.length := by
    rw [hvecs, List.length_map]
    exact hjlt
  have hvj : vecs[j] = vc := by
    rw [hgetv j hjv hjlt, hjc]
  have hscorej : simAt scores j = 1 := by
    rw [hsimAt j hjv, hvj]
    rw [show dotQ vc vc = normSq vc from rfl]
    exact hunit
  obtain ⟨i0, tail, hfull, hi0n, hmax0, hmemn⟩ :=
    faiss_order_spec scores vecs.length (by omega)
  have hi0le : simAt scores i0 ≤ 1 := by
    rw [hsimAt i0 hi0n]
    exact hboundi i0 hi0n
  have hi0ge : (1 : ℚ) ≤ simAt scores i0 := by
    rw [← hscorej]
    exact hmax0 j hjv
  have hi0eq : simAt scores i0 = 1 := le_antisymm hi0le hi0ge
  have hchunklen : i0 < (c0 :: rest0).length := by
    rw [hclen]
    exact hi0n
  have hdotc' : dotQ vc (normalizeVec ((c0 :: rest0)[i0]).embedding) = 1 := by
    have h1 := hi0eq
    rw [hsimAt i0 hi0n, hgetv i0 hi0n hchunklen] at h1
    exact h1
  have hidc : ((c0 :: rest0)[i0]).id = c.id :=
    huni _ (List.getElem_mem hchunklen) hdotc'
  have hi0m : i0 < metas.length := by
    rw [hmlen]
    exact hi0n
  have hmetai0 : (metas.getD i0 (MetaEntry.mk "" "")).id = c.id := by
    rw [getD_eq_getElem metas _ i0 hi0m, hgetm i0 hi0m hchunklen]
    exact hidc
  obtain ⟨m, hm⟩ : ∃ m, min top_k vecs.length = m + 1 := by
    have h1 : 1 ≤ min top_k vecs.length := le_min htop (by omega)
    exact ⟨min top_k vecs.length - 1, by omega⟩
  have hmemtake : ∀ i ∈ i0 :: tail.take m, i < metas.length := by
    intro i hi
    rw [hmlen]
    apply hmemn
    rcases List.mem_cons.1 hi with rfl | hi
    · exact List.mem_cons_self _ _
    · exact List.mem_cons_of_mem _ (List.mem_of_mem_take hi)
  rw [hfull, hm, List.take_succ_cons, filterMap_guard metas.length
    (fun i => QResult.mk (metas.getD i (MetaEntry.mk "" "")).id (simAt scores i)
      (metas.getD i (MetaEntry.mk "" "")).metadata) _ hmemtake] at hq0
  refine ⟨_, _, hq0, hmetai0, hi0eq, ?_⟩
  intro x hx
  rcases List.mem_map.1 (show x ∈ List.map
      (fun i => QResult.mk (metas.getD i (MetaEntry.mk "" "")).id (simAt scores i)
        (metas.getD i (MetaEntry.mk "" "")).metadata) (i0 :: tail.take m)
      from hx) with ⟨i, hi, rfl⟩
  have hin : i < vecs.length := by
    rw [← hmlen]
    exact hmemtake i hi
  show simAt scores i ≤ 1
  rw [hsimAt i hin]
  exact hboundi i hin

theorem normalizeVec_e1 : normalizeVec [1, 0] = [1, 0] := by
  have hns : normSq [1, 0] = 1 := by
    norm_num [normSq, dotQ, List.zipWith]
  exact normalizeVec_of_normSq_one _ hns

theorem normalizeVec_e2 : normalizeVec [0, 1] = [0, 1] := by
  have hns : normSq [0, 1] = 1 := by
    norm_num [normSq, dotQ, List.zipWith]
  exact normalizeVec_of_normSq_one _ hns

/-- **C9** (counterexample): two chunks `"a"` and `"b"` are upserted with
the SAME (unit) embedding `[1, 0]`; querying with chunk `"b"`'s own
post-normalization embedding returns chunk `"a"` as the (sole) top result,
so `"b"` is not the top result even though it was upserted and queried with
its own exact normalized vector. -/
theorem c9_counterexample :
    upsert_to_faiss freshFaissState
        [⟨"a", [1, 0], "ma"⟩, ⟨"b", [1, 0], "mb"⟩] =
      .ok ⟨some ⟨2, [[1, 0], [1, 0]]⟩, [⟨"a", "ma"⟩, ⟨"b", "mb"⟩]⟩ ∧
    normalizeVec [1, 0] = [1, 0] ∧
    query_faiss ⟨some ⟨2, [[1, 0], [1, 0]]⟩, [⟨"a", "ma"⟩, ⟨"b", "mb"⟩]⟩
        [1, 0] 1 = .ok [⟨"a", 1, "ma"⟩] ∧
    ¬ (∃ rest, query_faiss ⟨some ⟨2, [[1, 0], [1, 0]]⟩,
        [⟨"a", "ma"⟩, ⟨"b", "mb"⟩]⟩ [1, 0] 1 =
      .ok (⟨"b", 1, "mb"⟩ :: rest)) := by
  have h1 : upsert_to_faiss freshFaissState
      [⟨"a", [1, 0], "ma"⟩, ⟨"b", [1, 0], "mb"⟩] =
      .ok ⟨some ⟨2, [[1, 0], [1, 0]]⟩, [⟨"a", "ma"⟩, ⟨"b", "mb"⟩]⟩ := by
    norm_num [upsert_to_faiss, freshFaissState, arrayShape2, faissAdd,
      normalizeVec_e1]
  have h2 : query_faiss ⟨some ⟨2, [[1, 0], [1, 0]]⟩, [⟨"a", "ma"⟩, ⟨"b", "mb"⟩]⟩
      [1, 0] 1 = .ok [⟨"a", 1, "ma"⟩] := by
    norm_num [query_faiss, normalizeVec_e1, simAt, faissSearchLe, sortBy,
      insertSorted, List.range_succ, List.getD, dotQ, List.zipWith, min_def,
      List.filterMap_cons, List.getElem?_cons_zero, List.getElem?_cons_succ,
      Option.getD_some]
  refine ⟨h1, normalizeVec_e1, h2, ?_⟩
  rintro ⟨rest, hq⟩
  rw [h2] at hq
  have hlist := Except.ok.inj hq
  have hhead : (⟨"a", 1, "ma"⟩ : QResult) = ⟨"b", 1, "mb"⟩ := by
    injection hlist
  have : ("a" : String) = "b" := congrArg QResult.id hhead
  exact absurd this (by decide)

/-- Witness for `c9_amended` at a concrete two-chunk index with distinct
unit embeddings. -/
theorem c9_amended_witness :
    ∃ r rest, query_faiss ⟨some ⟨2, [[1, 0], [0, 1]]⟩, [⟨"a", "ma"⟩, ⟨"b", "mb"⟩]⟩
        (normalizeVec [1, 0]) 1 = .ok (r :: rest) ∧
      r.id = "a" ∧ r.score = 1 ∧ ∀ x ∈ r :: rest, x.score ≤ 1 := by
  have hup : upsert_to_faiss freshFaissState
      [⟨"a", [1, 0], "ma"⟩, ⟨"b", [0, 1], "mb"⟩] =
      .ok ⟨some ⟨2, [[1, 0], [0, 1]]⟩, [⟨"a", "ma"⟩, ⟨"b", "mb"⟩]⟩ := by
    norm_num [upsert_to_faiss, freshFaissState, arrayShape2, faissAdd,
      normalizeVec_e1, normalizeVec_e2]
  exact c9_amended [⟨"a", [1, 0], "ma"⟩, ⟨"b", [0, 1], "mb"⟩] ⟨"a", [1, 0], "ma"⟩
    _ 1 (List.mem_cons_self _ _) (le_refl 1)
    (by
      intro c' hc'
      rcases List.mem_cons.1 hc' with rfl | hc'
      · rfl
      · rcases List.mem_cons.1 hc' with rfl | hc'
        · show (normalizeVec [0, 1]).length = (normalizeVec [1, 0]).length
          rw [normalizeVec_e1, normalizeVec_e2]
          rfl
        · cases hc')
    (by
      show normSq (normalizeVec [1, 0]) = 1
      rw [normalizeVec_e1]
      norm_num [normSq, dotQ, List.zipWith])
    (by
      intro c' hc'
      rcases List.mem_cons.1 hc' with rfl | hc'
      · show normSq (normalizeVec [1, 0]) ≤ 1
        rw [normalizeVec_e1]
        norm_num [normSq, dotQ, List.zipWith]
      · rcases List.mem_cons.1 hc' with rfl | hc'
        · show normSq (normalizeVec [0, 1]) ≤ 1
          rw [normalizeVec_e2]
          norm_num [normSq, dotQ, List.zipWith]
        · cases hc')
    (by
      intro c' hc' hdot
      rcases List.mem_cons.1 hc' with rfl | hc'
      · rfl
      · rcases List.mem_cons.1 hc' with rfl | hc'
        · exfalso
          have hdot' : dotQ (normalizeVec [1, 0]) (normalizeVec [0, 1]) = 1 := hdot
          rw [normalizeVec_e1, normalizeVec_e2] at hdot'
          norm_num [dotQ, List.zipWith] at hdot'
        · cases hc')
    hup
